import Mathlib

/-!
Shallow embedding of `src/galaxy/service/graphLoader.js`.

JavaScript sparse arrays that the loader uses as integer-keyed maps are
modelled as association lists `List (Int × α)`:
- `mlookup` models reading `m[k]` (JS `undefined` becomes `none`);
- `mset` models the assignment `m[k] = v`;
- `mpush` models the append-or-create pattern
  `if (m[k] === undefined) m[k] = [x]; else m[k].push(x)`, and also
  `lastArray.push(x)` where `lastArray` aliases the array stored at `m[k]`.

The decoder state `LinksState` carries the mutable variables of `setLinks`
(`outLinks`, `inLinks`, the key aliased by `lastArray`, and the hoisted
`var srcIndex`, which is `undefined` — here `none` — until the first
negative token), plus two ghost counters recording how many edge appends
and how many source declarations were performed.
-/

/-- Reading `m[k]` of a JS sparse array used as a map; `none` models `undefined`. -/
def mlookup {α : Type} : List (Int × α) → Int → Option α
  | [], _ => none
  | (k0, v0) :: rest, k => if k = k0 then some v0 else mlookup rest k

/-- The assignment `m[k] = v` on a JS sparse array used as a map. -/
def mset {α : Type} : List (Int × α) → Int → α → List (Int × α)
  | [], k, v => [(k, v)]
  | (k0, v0) :: rest, k, v =>
    if k = k0 then (k0, v) :: rest else (k0, v0) :: mset rest k v

/-- Append `x` to the list stored at key `k`, creating the entry if absent. -/
def mpush {α : Type} (m : List (Int × List α)) (k : Int) (x : α) : List (Int × List α) :=
  mset m k (((mlookup m k).getD []) ++ [x])

@[simp] lemma mlookup_nil {α : Type} (k : Int) : mlookup ([] : List (Int × α)) k = none := rfl

lemma mlookup_cons {α : Type} (k0 k : Int) (v0 : α) (rest : List (Int × α)) :
    mlookup ((k0, v0) :: rest) k = if k = k0 then some v0 else mlookup rest k := rfl

lemma mlookup_mset {α : Type} (m : List (Int × α)) (k j : Int) (v : α) :
    mlookup (mset m k v) j = if j = k then some v else mlookup m j := by
  induction m with
  | nil => by_cases h : j = k <;> simp [mset, mlookup, h]
  | cons p rest ih =>
    obtain ⟨k0, v0⟩ := p
    by_cases h1 : k = k0
    · subst h1
      by_cases h2 : j = k <;> simp [mset, mlookup, h2]
    · by_cases h2 : j = k0
      · subst h2
        have h3 : ¬ j = k := fun h => h1 (h ▸ rfl)
        simp [mset, mlookup, h1, h3]
      · simp [mset, mlookup, h1, h2, ih]

lemma mlookup_mpush {α : Type} (m : List (Int × List α)) (k j : Int) (x : α) :
    mlookup (mpush m k x) j =
      if j = k then some (((mlookup m k).getD []) ++ [x]) else mlookup m j := by
  simp [mpush, mlookup_mset]

lemma mset_mset {α : Type} (m : List (Int × α)) (k : Int) (v w : α) :
    mset (mset m k v) k w = mset m k w := by
  induction m with
  | nil => simp [mset]
  | cons p rest ih =>
    obtain ⟨k0, v0⟩ := p
    by_cases h : k = k0 <;> simp [mset, h, ih]

lemma mset_eq_self {α : Type} (m : List (Int × α)) (k : Int) (v : α)
    (h : mlookup m k = some v) : mset m k v = m := by
  induction m with
  | nil => simp [mlookup] at h
  | cons p rest ih =>
    obtain ⟨k0, v0⟩ := p
    by_cases h1 : k = k0
    · subst h1
      simp [mlookup] at h
      simp [mset, h]
    · simp [mlookup, h1] at h
      simp [mset, h1, ih h]

/-- Total number of stored list elements across all entries of the map. -/
def mtotal {α : Type} (m : List (Int × List α)) : Nat :=
  (m.map fun p => p.2.length).sum

lemma mtotal_mpush {α : Type} (m : List (Int × List α)) (k : Int) (x : α) :
    mtotal (mpush m k x) = mtotal m + 1 := by
  induction m with
  | nil => simp [mpush, mset, mlookup, mtotal]
  | cons p rest ih =>
    obtain ⟨k0, v0⟩ := p
    by_cases h : k = k0
    · subst h
      simp [mpush, mset, mlookup, mtotal]
      omega
    · simp [mpush, mset, mlookup, h, mtotal] at ih ⊢
      omega

/-- The mutable state of `setLinks` (graphLoader.js, lines 108–129).
`lastKey` is the key whose stored array is aliased by the JS variable
`lastArray`; `srcIndex` is the hoisted `var srcIndex`, `none` while still
`undefined`.  `edgePushes` and `srcDecls` are ghost counters: they count
the `lastArray.push(toNode)` operations and the source declarations
performed, and influence nothing else. -/
structure LinksState where
  outLinks : List (Int × List Int)
  inLinks : List (Int × List (Option Int))
  lastKey : Int
  srcIndex : Option Int
  edgePushes : Nat
  srcDecls : Nat
deriving DecidableEq

/-- One iteration of the `for` loop of `setLinks` on token `v`. -/
def setLinksStep (st : LinksState) (v : Int) : LinksState :=
  if v < 0 then
    let srcIndex := -v - 1
    { st with
      outLinks := mset st.outLinks srcIndex []
      lastKey := srcIndex
      srcIndex := some srcIndex
      srcDecls := st.srcDecls + 1 }
  else
    let toNode := v - 1
    { st with
      outLinks := mpush st.outLinks st.lastKey toNode
      inLinks := mpush st.inLinks toNode st.srcIndex
      edgePushes := st.edgePushes + 1 }

/-- State right before the loop: `var lastArray = []; outLinks[0] = lastArray;`,
`inLinks` still empty, `srcIndex` still `undefined`. -/
def initLinksState : LinksState :=
  { outLinks := [(0, [])]
    inLinks := []
    lastKey := 0
    srcIndex := none
    edgePushes := 0
    srcDecls := 0 }

/-- The loop of `setLinks`, started from an arbitrary state. -/
def setLinksList (st : LinksState) (links : List Int) : LinksState :=
  links.foldl setLinksStep st

/-- `setLinks` of graphLoader.js: decode a link token stream. -/
def setLinks (links : List Int) : LinksState :=
  setLinksList initLinksState links

lemma setLinksList_nil (st : LinksState) : setLinksList st [] = st := rfl

lemma setLinksList_cons (st : LinksState) (v : Int) (l : List Int) :
    setLinksList st (v :: l) = setLinksList (setLinksStep st v) l := rfl

lemma setLinksList_append (st : LinksState) (a b : List Int) :
    setLinksList st (a ++ b) = setLinksList (setLinksList st a) b := by
  simp [setLinksList, List.foldl_append]

/-- C2 counterexample: on the stream `[-1, 2, 3, -2, 1]` the decoder does
create an `inLinks` entry for node 0 (namely `[1]`, from the edge 1 → 0
encoded by the trailing token `1`), contradicting the claim that `inLinks`
has entries only at 1 and 2. -/
theorem setLinks_scenario_cex :
    mlookup (setLinks [-1, 2, 3, -2, 1]).inLinks 0 = some [some 1] := by decide

/-- C2 amended: decoding `[-1, 2, 3, -2, 1]` yields exactly
`outLinks = {0 ↦ [1, 2], 1 ↦ [0]}` and exactly
`inLinks = {1 ↦ [0], 2 ↦ [0], 0 ↦ [1]}` (the claim omitted the entry at 0). -/
theorem setLinks_scenario :
    (setLinks [-1, 2, 3, -2, 1]).outLinks = [(0, [1, 2]), (1, [0])] ∧
    (setLinks [-1, 2, 3, -2, 1]).inLinks = [(1, [some 0]), (2, [some 0]), (0, [some 1])] := by
  decide

/-- C4 counterexample: on the stream `[0]` the decoder reports no error; it
silently appends the invalid target index `-1` to `outLinks[0]` and creates
an `inLinks` entry at index `-1` holding the undefined source. -/
theorem setLinks_malformed_cex :
    mlookup (setLinks [0]).outLinks 0 = some [-1] ∧
    mlookup (setLinks [0]).inLinks (-1) = some [none] := by decide

/-- C4 amended: the decoder never reports a decode error.  A stream starting
with the non-negative token `2` silently appends target `1` to the list at
`outLinks[0]` and records the still-undefined source (`none`) in
`inLinks[1]`; a stream of zero tokens silently appends target `-1` twice
and records the undefined source twice at `inLinks[-1]`. -/
theorem setLinks_malformed_silent :
    mlookup (setLinks [2]).outLinks 0 = some [1] ∧
    mlookup (setLinks [2]).inLinks 1 = some [none] ∧
    mlookup (setLinks [0, 0]).outLinks 0 = some [-1, -1] ∧
    mlookup (setLinks [0, 0]).inLinks (-1) = some [none, none] := by decide

lemma setLinksList_counts (l : List Int) : ∀ st : LinksState,
    (setLinksList st l).edgePushes = st.edgePushes + l.countP (fun v => decide (0 ≤ v)) ∧
    (setLinksList st l).srcDecls = st.srcDecls + l.countP (fun v => decide (v < 0)) ∧
    mtotal (setLinksList st l).inLinks =
      mtotal st.inLinks + l.countP (fun v => decide (0 ≤ v)) := by
  induction l with
  | nil => intro st; simp [setLinksList]
  | cons v l ih =>
    intro st
    rw [setLinksList_cons]
    obtain ⟨h1, h2, h3⟩ := ih (setLinksStep st v)
    by_cases hv : v < 0
    · have hv2 : ¬ 0 ≤ v := by omega
      simp [setLinksStep, hv, List.countP_cons, hv2] at h1 h2 h3 ⊢
      omega
    · have hv2 : 0 ≤ v := by omega
      simp [setLinksStep, hv, List.countP_cons, hv2, mtotal_mpush] at h1 h2 h3 ⊢
      omega

/-- C7: for every token stream, the number of forward-edge appends performed
equals the number of non-negative tokens, and the number of source
declarations performed equals the number of negative tokens; moreover the
total number of entries accumulated across all `inLinks` lists (which are
never reset) also equals the number of non-negative tokens. -/
theorem setLinks_counts (links : List Int) :
    (setLinks links).edgePushes = links.countP (fun v => decide (0 ≤ v)) ∧
    (setLinks links).srcDecls = links.countP (fun v => decide (v < 0)) ∧
    mtotal (setLinks links).inLinks = links.countP (fun v => decide (0 ≤ v)) := by
  have h := setLinksList_counts links initLinksState
  simpa [setLinks, initLinksState, mtotal] using h

lemma setLinksList_zero_isSome (l : List Int) : ∀ st : LinksState,
    (mlookup st.outLinks 0).isSome → (mlookup (setLinksList st l).outLinks 0).isSome := by
  induction l with
  | nil => intro st h; simpa [setLinksList] using h
  | cons v l ih =>
    intro st h
    rw [setLinksList_cons]
    apply ih
    by_cases hv : v < 0
    · simp [setLinksStep, hv, mlookup_mset]
      by_cases h0 : (0 : Int) = -v - 1 <;> simp [h0]
      simpa [h0] using h
    · simp [setLinksStep, hv, mlookup_mpush]
      by_cases h0 : (0 : Int) = st.lastKey <;> simp [h0]
      simpa using h

/-- C9: for every token stream the decoded `outLinks` has an entry at index 0
(it is created unconditionally before the loop), and decoding the empty
stream yields exactly one `outLinks` entry — an empty list at node 0 — and an
empty `inLinks`. -/
theorem setLinks_outLinks_zero :
    (∀ links : List Int, (mlookup (setLinks links).outLinks 0).isSome) ∧
    (setLinks []).outLinks = [(0, [])] ∧ (setLinks []).inLinks = [] := by
  refine ⟨fun links => ?_, rfl, rfl⟩
  exact setLinksList_zero_isSome links initLinksState (by simp [initLinksState, mlookup])

/-!
Version resolution (`getFromAppConfig`, graphLoader.js lines 65–83) and the
manifest data model.  JS truthiness matters twice: a missing (`undefined`)
pinned version and the empty string are both falsy, and the final
`getFromAppConfig(manifest) || manifest.last` falls back on any falsy value.
-/

/-- The parsed `manifest.json`: `last` is `manifest.last`, `all` is the
optional whitelist `manifest.all`. -/
structure Manifest where
  last : String
  all : Option (List String)
deriving DecidableEq

/-- JS `x || dflt` for an optional string `x`: both `undefined` and the
empty string are falsy. -/
def jsOr (x : Option String) (dflt : String) : String :=
  match x with
  | none => dflt
  | some s => if s = "" then dflt else s

/-- `getFromAppConfig` of graphLoader.js: returns the pinned version when the
manifest has a whitelist, the pinned version is truthy, and the whitelist
contains it (`indexOf >= 0`); otherwise returns `undefined`. -/
def getFromAppConfig (manifest : Manifest) (appConfigVersion : Option String) : Option String :=
  match manifest.all, appConfigVersion with
  | none, _ => none
  | some _, none => none
  | some approved, some pinned =>
    if pinned = "" then none
    else if pinned ∈ approved then some pinned else none

/-- `var version = getFromAppConfig(manifest) || manifest.last;`
(graphLoader.js line 67). -/
def resolveVersion (manifest : Manifest) (appConfigVersion : Option String) : String :=
  jsOr (getFromAppConfig manifest appConfigVersion) manifest.last

/-- C5 counterexample: the "only if" direction of the claimed equivalence
fails.  For the manifest `{last: "v1", all: ["v2"]}` with pinned `"v1"`,
the resolver returns `"v1"` (the last version), which equals the pinned
version even though `"v1"` is not in the approved list. -/
theorem resolveVersion_cex :
    resolveVersion ⟨"v1", some ["v2"]⟩ (some "v1") = "v1" ∧ "v1" ∉ ["v2"] := by decide

/-- C5 amended: when the manifest has an approved list and the pinned version
is present and non-empty, the resolver returns the pinned version if it is
approved and `manifest.last` otherwise (so the result can coincide with an
unapproved pinned version when `manifest.last` equals it); an absent or
empty pinned version, or an absent approved list, yields `manifest.last`. -/
theorem resolveVersion_spec :
    (∀ (M : Manifest) (p : String) (approved : List String),
      M.all = some approved → p ≠ "" →
      resolveVersion M (some p) = if p ∈ approved then p else M.last) ∧
    (∀ M : Manifest, resolveVersion M none = M.last) ∧
    (∀ last p : String, resolveVersion ⟨last, none⟩ (some p) = last) ∧
    (∀ M : Manifest, resolveVersion M (some "") = M.last) := by
  refine ⟨fun M p approved hall hp => ?_, fun M => ?_, fun last p => ?_, fun M => ?_⟩
  · obtain ⟨mlast, mall⟩ := M
    have hall2 : mall = some approved := hall
    subst hall2
    by_cases hmem : p ∈ approved <;> simp [resolveVersion, getFromAppConfig, hmem, hp, jsOr]
  · obtain ⟨mlast, mall⟩ := M
    cases mall <;> simp [resolveVersion, getFromAppConfig, jsOr]
  · rfl
  · obtain ⟨mlast, mall⟩ := M
    cases mall <;> simp [resolveVersion, getFromAppConfig, jsOr]

/-- C5 witness (the spec's own end-to-end scenario): manifest
`{last: "v2", all: ["v1", "v2"]}` with pinned `"v1"` resolves to `"v1"`. -/
theorem resolveVersion_spec_witness :
    resolveVersion ⟨"v2", some ["v1", "v2"]⟩ (some "v1") = "v1" := by
  have h := resolveVersion_spec.1 ⟨"v2", some ["v1", "v2"]⟩ "v1" ["v1", "v2"] rfl (by decide)
  exact h.trans (by decide)

/-!
`setPositions` (graphLoader.js lines 92–99).  The `Int32Array` cells are
modelled as mathematical integers reduced to the signed 32-bit range after
each store, which is what `positions[i] *= scaleFactor` does (ToInt32 on
the product).  The scale factor is modelled as an integer; no length
validation of any kind appears in the source.
-/

/-- ToInt32: reduce an integer into `[-2^31, 2^31)`, as storing into an
`Int32Array` cell does. -/
def toInt32 (x : Int) : Int := (x + 2 ^ 31) % 2 ^ 32 - 2 ^ 31

/-- `setPositions` of graphLoader.js: multiply every cell of the buffer by
the scale factor, in place, with no check on the buffer length. -/
def setPositions (buffer : List Int) (scaleFactor : Int) : List Int :=
  buffer.map fun x => toInt32 (x * scaleFactor)

lemma toInt32_eq_self (x : Int) (h1 : -(2 ^ 31) ≤ x) (h2 : x < 2 ^ 31) :
    toInt32 x = x := by
  rw [toInt32, Int.emod_eq_of_lt (by omega) (by omega)]
  omega

/-- C6 counterexample: a buffer of length 2 (not a multiple of 3) is decoded
without any error — `setPositions` scales it and returns a result. -/
theorem setPositions_cex :
    [(1 : Int), 2].length % 3 ≠ 0 ∧ setPositions [1, 2] 1 = [1, 2] := by
  refine ⟨by decide, ?_⟩
  decide

/-- C6 amended: `setPositions` performs no length validation at all: for
every buffer (of any length, multiple of 3 or not) it returns a scaled
buffer of the same length, and with scale factor 1 it returns any buffer of
in-range 32-bit values unchanged. -/
theorem setPositions_unchecked :
    (∀ (buffer : List Int) (scaleFactor : Int),
      (setPositions buffer scaleFactor).length = buffer.length) ∧
    (∀ buffer : List Int, (∀ x ∈ buffer, -(2 ^ 31) ≤ x ∧ x < 2 ^ 31) →
      setPositions buffer 1 = buffer) := by
  constructor
  · intro buffer scaleFactor
    simp [setPositions]
  · intro buffer h
    induction buffer with
    | nil => rfl
    | cons a l ih =>
      have ha := h a (by simp)
      have hl : ∀ x ∈ l, -(2 ^ 31) ≤ x ∧ x < 2 ^ 31 :=
        fun x hx => h x (List.mem_cons_of_mem a hx)
      simp only [setPositions, List.map_cons] at ih ⊢
      rw [mul_one, toInt32_eq_self a ha.1 ha.2, ih hl]

/-- C6 witness: `setPositions` on the length-4 buffer `[3, 4, 5, 6]` (length
not a multiple of 3) with scale factor 1 returns it unchanged, and scaling
`[5]` by 7 keeps length 1. -/
theorem setPositions_unchecked_witness :
    (setPositions [(5 : Int)] 7).length = 1 ∧
    setPositions [(3 : Int), 4, 5, 6] 1 = [3, 4, 5, 6] :=
  ⟨(setPositions_unchecked.1 [5] 7).trans rfl,
   setPositions_unchecked.2 [3, 4, 5, 6] (by decide)⟩

/-!
The load pipeline (`loadGraph`, graphLoader.js lines 34–57).  The promise
chain `loadManifest().then(loadPositions).then(loadLinks).then(loadLabels)
.then(convertToGraph)` is modelled synchronously: each fetch outcome is an
`Except` value supplied up front, a rejected promise short-circuits the
rest of the chain, and the function additionally returns the list of
fetches that were actually issued.  `createGraph` (graph.js, outside the
decoding core) is per §4.4 a pure aggregation of its four fields.
-/

/-- The immutable aggregate produced by `convertToGraph` / `createGraph`. -/
structure GraphDataset where
  positions : List Int
  labels : List String
  outLinks : List (Int × List Int)
  inLinks : List (Int × List (Option Int))
deriving DecidableEq

/-- The four remote fetches the pipeline can issue, in pipeline order. -/
inductive FetchKind where
  | manifest
  | positions
  | links
  | labels
deriving DecidableEq

/-- Outcomes of the four fetches, supplied by the transport collaborator:
`Except.error` models a rejected request promise. -/
structure Fetches where
  manifest : Except String Manifest
  positionsBuf : Except String (List Int)
  linksBuf : Except String (List Int)
  labelsData : Except String (List String)

/-- `loadGraph` of graphLoader.js: fetch manifest, resolve the version,
then fetch and decode positions, links and labels in that order, finally
assemble the dataset.  A failed step rejects the whole chain with the
originating error and no later fetch is issued; the second component lists
the fetches that were issued. -/
def loadGraph (f : Fetches) (appConfigVersion : Option String) (scaleFactor : Int) :
    Except String GraphDataset × List FetchKind :=
  match f.manifest with
  | .error e => (.error e, [.manifest])
  | .ok m =>
    let _version := resolveVersion m appConfigVersion
    match f.positionsBuf with
    | .error e => (.error e, [.manifest, .positions])
    | .ok posBuf =>
      let positions := setPositions posBuf scaleFactor
      match f.linksBuf with
      | .error e => (.error e, [.manifest, .positions, .links])
      | .ok linkBuf =>
        let st := setLinks linkBuf
        match f.labelsData with
        | .error e => (.error e, [.manifest, .positions, .links, .labels])
        | .ok lbls =>
          (.ok { positions := positions, labels := lbls,
                 outLinks := st.outLinks, inLinks := st.inLinks },
           [.manifest, .positions, .links, .labels])

/-- C8: a failing fetch rejects the pipeline with the originating error and
prevents every later fetch from being issued (in particular a failed links
fetch means the labels fetch never happens), and a dataset is produced only
when all four fetches succeeded. -/
theorem loadGraph_failure_semantics :
    (∀ (f : Fetches) (ac : Option String) (sc : Int) (e : String),
      f.manifest = .error e →
      (loadGraph f ac sc).1 = .error e ∧
      FetchKind.positions ∉ (loadGraph f ac sc).2 ∧
      FetchKind.links ∉ (loadGraph f ac sc).2 ∧
      FetchKind.labels ∉ (loadGraph f ac sc).2) ∧
    (∀ (f : Fetches) (ac : Option String) (sc : Int) (e : String) (m : Manifest),
      f.manifest = .ok m → f.positionsBuf = .error e →
      (loadGraph f ac sc).1 = .error e ∧
      FetchKind.links ∉ (loadGraph f ac sc).2 ∧
      FetchKind.labels ∉ (loadGraph f ac sc).2) ∧
    (∀ (f : Fetches) (ac : Option String) (sc : Int) (e : String) (m : Manifest)
      (pb : List Int),
      f.manifest = .ok m → f.positionsBuf = .ok pb → f.linksBuf = .error e →
      (loadGraph f ac sc).1 = .error e ∧
      FetchKind.labels ∉ (loadGraph f ac sc).2) ∧
    (∀ (f : Fetches) (ac : Option String) (sc : Int) (e : String) (m : Manifest)
      (pb lb : List Int),
      f.manifest = .ok m → f.positionsBuf = .ok pb → f.linksBuf = .ok lb →
      f.labelsData = .error e →
      (loadGraph f ac sc).1 = .error e) ∧
    (∀ (f : Fetches) (ac : Option String) (sc : Int) (d : GraphDataset),
      (loadGraph f ac sc).1 = .ok d →
      (∃ m, f.manifest = .ok m) ∧ (∃ pb, f.positionsBuf = .ok pb) ∧
      (∃ lb, f.linksBuf = .ok lb) ∧ (∃ ld, f.labelsData = .ok ld)) := by
  refine ⟨?_, ?_, ?_, ?_, ?_⟩
  · intro f ac sc e h1
    simp [loadGraph, h1]
  · intro f ac sc e m h1 h2
    simp [loadGraph, h1, h2]
  · intro f ac sc e m pb h1 h2 h3
    simp [loadGraph, h1, h2, h3]
  · intro f ac sc e m pb lb h1 h2 h3 h4
    simp [loadGraph, h1, h2, h3, h4]
  · intro f ac sc d h
    rcases hm : f.manifest with e | m
    · simp [loadGraph, hm] at h
    rcases hp : f.positionsBuf with e | pb
    · simp [loadGraph, hm, hp] at h
    rcases hl : f.linksBuf with e | lb
    · simp [loadGraph, hm, hp, hl] at h
    rcases hd : f.labelsData with e | ld
    · simp [loadGraph, hm, hp, hl, hd] at h
    exact ⟨⟨m, rfl⟩, ⟨pb, rfl⟩, ⟨lb, rfl⟩, ⟨ld, rfl⟩⟩

/-- C8 witness: with a failing links fetch (and everything before it
succeeding) the pipeline rejects with that error and never issues the
labels fetch. -/
theorem loadGraph_failure_witness :
    (loadGraph ⟨.ok ⟨"v1", some ["v1"]⟩, .ok [], .error "boom", .ok []⟩ none 1).1 =
      .error "boom" ∧
    FetchKind.labels ∉
      (loadGraph ⟨.ok ⟨"v1", some ["v1"]⟩, .ok [], .error "boom", .ok []⟩ none 1).2 :=
  loadGraph_failure_semantics.2.2.1
    ⟨.ok ⟨"v1", some ["v1"]⟩, .ok [], .error "boom", .ok []⟩ none 1 "boom"
    ⟨"v1", some ["v1"]⟩ [] rfl rfl rfl

/-!
Sparseness (C3).  `declaresSource links k` says some negative token of the
stream declares source `k`; `hasTarget links k` says some non-negative
token decrements to target `k`.  Keys can enter `outLinks` only through the
unconditional initial entry at 0, through a source declaration, or through
a push at `lastKey` (which is itself 0 or a previously declared source);
keys enter `inLinks` only at decremented targets.
-/

/-- Some negative token of the stream declares source id `k`. -/
def declaresSource (links : List Int) (k : Int) : Prop :=
  ∃ v ∈ links, v < 0 ∧ -v - 1 = k

/-- Some non-negative token of the stream has decremented target `k`. -/
def hasTarget (links : List Int) (k : Int) : Prop :=
  ∃ v ∈ links, 0 ≤ v ∧ v - 1 = k

lemma setLinksList_keys (l : List Int) : ∀ st : LinksState,
    (∀ k : Int, (mlookup (setLinksList st l).outLinks k).isSome →
      (mlookup st.outLinks k).isSome ∨ k = st.lastKey ∨ declaresSource l k) ∧
    (∀ k : Int, (mlookup (setLinksList st l).inLinks k).isSome →
      (mlookup st.inLinks k).isSome ∨ hasTarget l k) := by
  induction l with
  | nil => exact fun st => ⟨fun k hk => Or.inl hk, fun k hk => Or.inl hk⟩
  | cons v l ih =>
    intro st
    rw [setLinksList_cons]
    obtain ⟨ihOut, ihIn⟩ := ih (setLinksStep st v)
    by_cases hv : v < 0
    · constructor
      · intro k hk
        rcases ihOut k hk with h | h | h
        · simp [setLinksStep, hv, mlookup_mset] at h
          by_cases hk2 : k = -v - 1
          · exact Or.inr (Or.inr ⟨v, by simp, hv, by omega⟩)
          · simp [hk2] at h
            exact Or.inl h
        · simp [setLinksStep, hv] at h
          exact Or.inr (Or.inr ⟨v, by simp, hv, h.symm⟩)
        · exact Or.inr (Or.inr ⟨h.choose, by
            obtain ⟨hm, hrest⟩ := h.choose_spec
            exact ⟨List.mem_cons_of_mem v hm, hrest⟩⟩)
      · intro k hk
        rcases ihIn k hk with h | h
        · simp [setLinksStep, hv] at h
          exact Or.inl h
        · exact Or.inr ⟨h.choose, by
            obtain ⟨hm, hrest⟩ := h.choose_spec
            exact ⟨List.mem_cons_of_mem v hm, hrest⟩⟩
    · constructor
      · intro k hk
        rcases ihOut k hk with h | h | h
        · simp [setLinksStep, hv, mlookup_mpush] at h
          by_cases hk2 : k = st.lastKey
          · exact Or.inr (Or.inl hk2)
          · simp [hk2] at h
            exact Or.inl h
        · simp [setLinksStep, hv] at h
          exact Or.inr (Or.inl h)
        · exact Or.inr (Or.inr ⟨h.choose, by
            obtain ⟨hm, hrest⟩ := h.choose_spec
            exact ⟨List.mem_cons_of_mem v hm, hrest⟩⟩)
      · intro k hk
        rcases ihIn k hk with h | h
        · simp [setLinksStep, hv, mlookup_mpush] at h
          by_cases hk2 : k = v - 1
          · exact Or.inr ⟨v, by simp, by omega, hk2.symm⟩
          · simp [hk2] at h
            exact Or.inl h
        · exact Or.inr ⟨h.choose, by
            obtain ⟨hm, hrest⟩ := h.choose_spec
            exact ⟨List.mem_cons_of_mem v hm, hrest⟩⟩

/-- C3 counterexample: after decoding the empty stream — in which node 0 is
never declared as a source — `outLinks` nevertheless has an entry at node 0
(the decoder creates `outLinks[0] = []` unconditionally before its loop),
contradicting the claim that undeclared nodes "including node id 0" have no
entry. -/
theorem setLinks_sparse_cex :
    ¬ declaresSource [] 0 ∧ mlookup (setLinks []).outLinks 0 = some [] := by
  constructor
  · rintro ⟨v, hv, -⟩
    simp at hv
  · decide

/-- C3 amended: every node id other than 0 that is never declared by a
negative token has no `outLinks` entry (node 0 always has one, created
before the loop), and every node id that is never a decremented target of a
non-negative token has no `inLinks` entry. -/
theorem setLinks_sparse (links : List Int) (k : Int) :
    (k ≠ 0 → ¬ declaresSource links k → mlookup (setLinks links).outLinks k = none) ∧
    (¬ hasTarget links k → mlookup (setLinks links).inLinks k = none) := by
  obtain ⟨hOut, hIn⟩ := setLinksList_keys links initLinksState
  constructor
  · intro hk0 hdecl
    cases h : mlookup (setLinks links).outLinks k with
    | none => rfl
    | some w =>
      rcases hOut k (by simp [setLinks] at h ⊢; simp [h]) with h2 | h2 | h2
      · rw [show mlookup initLinksState.outLinks k =
            if k = 0 then some [] else none from rfl] at h2
        simp [hk0] at h2
      · exact absurd h2 (by simpa [initLinksState] using hk0)
      · exact absurd h2 hdecl
  · intro htgt
    cases h : mlookup (setLinks links).inLinks k with
    | none => rfl
    | some w =>
      rcases hIn k (by simp [setLinks] at h ⊢; simp [h]) with h2 | h2
      · simp [initLinksState] at h2
      · exact absurd h2 htgt

/-- C3 witness: in the stream `[-3, 5]` node 7 is neither declared (only 2
is) nor a target (only 4 is), so it has no entry in either mapping. -/
theorem setLinks_sparse_witness :
    mlookup (setLinks [-3, 5]).outLinks 7 = none ∧
    mlookup (setLinks [-3, 5]).inLinks 7 = none := by
  have h := setLinks_sparse [-3, 5] 7
  refine ⟨h.1 (by decide) ?_, h.2 ?_⟩
  · rintro ⟨v, hv, h1, h2⟩
    simp at hv
    rcases hv with rfl | rfl <;> omega
  · rintro ⟨v, hv, h1, h2⟩
    simp at hv
    rcases hv with rfl | rfl <;> omega

/-!
Round-trip (C1).  `encodePair` is the reference encoding of one
`(sourceId, targets)` pair — the token `-(sourceId+1)` followed by
`target+1` for each target — and `encodePairs` concatenates the blocks.
`srcsTo pairs t` lists, in stream order, the sources of all encoded edges
whose target is `t`.  The decode of one block and of a whole encoded
stream are characterised below.
-/

/-- Number of occurrences of `x` in `l`. -/
def occCount {α : Type} [DecidableEq α] (x : α) : List α → Nat
  | [] => 0
  | y :: l => occCount x l + (if y = x then 1 else 0)

/-- Reference encoding of one `(sourceId, targets)` pair. -/
def encodePair (p : Int × List Int) : List Int :=
  (-(p.1 + 1)) :: p.2.map (fun t => t + 1)

/-- Reference encoding of a sequence of `(sourceId, targets)` pairs. -/
def encodePairs : List (Int × List Int) → List Int
  | [] => []
  | p :: ps => encodePair p ++ encodePairs ps

/-- Sources of all encoded edges with target `t`, in stream order. -/
def srcsTo : List (Int × List Int) → Int → List Int
  | [], _ => []
  | p :: ps, t => (p.2.filterMap fun x => if x = t then some p.1 else none) ++ srcsTo ps t

/-- Effect of one encoded block on `inLinks`: push source `s` at each target. -/
def pushSources (m : List (Int × List (Option Int))) (s : Int) (ts : List Int) :
    List (Int × List (Option Int)) :=
  ts.foldl (fun m t => mpush m t (some s)) m

lemma encodePairs_cons (p : Int × List Int) (ps : List (Int × List Int)) :
    encodePairs (p :: ps) = encodePair p ++ encodePairs ps := rfl

lemma srcsTo_cons (p : Int × List Int) (ps : List (Int × List Int)) (t : Int) :
    srcsTo (p :: ps) t =
      (p.2.filterMap fun x => if x = t then some p.1 else none) ++ srcsTo ps t := rfl

lemma pushSources_cons (m : List (Int × List (Option Int))) (s t : Int) (ts : List Int) :
    pushSources m s (t :: ts) = pushSources (mpush m t (some s)) s ts := rfl

lemma filterMap_eq_replicate (ts : List Int) (t s : Int) :
    (ts.filterMap fun x => if x = t then some s else none) =
      List.replicate (occCount t ts) s := by
  induction ts with
  | nil => simp [occCount]
  | cons x ts ih =>
    by_cases hx : x = t
    · subst hx
      simp [occCount, List.filterMap_cons, ih, List.replicate_succ]
    · simp [occCount, List.filterMap_cons, hx, ih]

/-- Decoding the edge tokens of one block: with the active source `s`, each
token `t+1` appends `t` to the list at `s` and records `s` at `inLinks[t]`. -/
lemma setLinksList_edges (ts : List Int) : ∀ (st : LinksState) (s : Int),
    st.lastKey = s → st.srcIndex = some s → (∀ t ∈ ts, 0 ≤ t) →
    setLinksList st (ts.map (fun t => t + 1)) =
      { st with
        outLinks := ts.foldl (fun m t => mpush m s t) st.outLinks
        inLinks := pushSources st.inLinks s ts
        edgePushes := st.edgePushes + ts.length } := by
  induction ts with
  | nil =>
    intro st s h1 h2 h3
    simp [setLinksList, pushSources]
  | cons t ts ih =>
    intro st s h1 h2 h3
    have ht : (0 : Int) ≤ t := h3 t (List.mem_cons_self t ts)
    have hstep : setLinksStep st (t + 1) =
        { st with
          outLinks := mpush st.outLinks s t
          inLinks := mpush st.inLinks t (some s)
          edgePushes := st.edgePushes + 1 } := by
      have hneg : ¬ (t + 1 < 0) := by omega
      have htn : t + 1 - 1 = t := by ring
      simp only [setLinksStep, if_neg hneg, htn, h1, h2]
    rw [List.map_cons, setLinksList_cons, hstep,
      ih { st with
            outLinks := mpush st.outLinks s t
            inLinks := mpush st.inLinks t (some s)
            edgePushes := st.edgePushes + 1 } s h1 h2
        (fun x hx => h3 x (List.mem_cons_of_mem t hx))]
    obtain ⟨o, i, lk, si, ep, sd⟩ := st
    simp only [List.foldl_cons, pushSources_cons, List.length_cons, LinksState.mk.injEq]
    exact ⟨trivial, trivial, trivial, trivial, by omega, trivial⟩

/-- Decoding one whole encoded block from any state: the source's list is
reset to exactly its targets, and the sources are pushed onto `inLinks`. -/
lemma foldl_mpush_fixed {α : Type} (ts : List α) :
    ∀ (m : List (Int × List α)) (s : Int) (l : List α),
    mlookup m s = some l →
    ts.foldl (fun m t => mpush m s t) m = mset m s (l ++ ts) := by
  induction ts with
  | nil =>
    intro m s l h
    simp [mset_eq_self m s l h]
  | cons t ts ih =>
    intro m s l h
    rw [List.foldl_cons]
    have h1 : mpush m s t = mset m s (l ++ [t]) := by simp [mpush, h]
    rw [h1, ih _ s (l ++ [t]) (by simp [mlookup_mset]), mset_mset]
    simp

lemma setLinksList_encodePair (s : Int) (ts : List Int) (st : LinksState)
    (hs : 0 ≤ s) (hts : ∀ t ∈ ts, 0 ≤ t) :
    setLinksList st (encodePair (s, ts)) =
      { st with
        outLinks := mset st.outLinks s ts
        inLinks := pushSources st.inLinks s ts
        lastKey := s
        srcIndex := some s
        edgePushes := st.edgePushes + ts.length
        srcDecls := st.srcDecls + 1 } := by
  have hneg : -(s + 1) < 0 := by omega
  have hsrc : -(-(s + 1)) - 1 = s := by ring
  have hstep : setLinksStep st (-(s + 1)) =
      { st with
        outLinks := mset st.outLinks s []
        lastKey := s
        srcIndex := some s
        srcDecls := st.srcDecls + 1 } := by
    simp only [setLinksStep, if_pos hneg, hsrc]
  rw [encodePair, setLinksList_cons, hstep,
    setLinksList_edges ts _ s rfl rfl hts,
    foldl_mpush_fixed ts _ s [] (by simp [mlookup_mset]), mset_mset]
  rfl

lemma mlookup_pushSources (ts : List Int) :
    ∀ (m : List (Int × List (Option Int))) (s t : Int),
    mlookup (pushSources m s ts) t =
      if occCount t ts = 0 then mlookup m t
      else some (((mlookup m t).getD []) ++ List.replicate (occCount t ts) (some s)) := by
  induction ts with
  | nil => intro m s t; simp [pushSources, occCount]
  | cons x ts ih =>
    intro m s t
    rw [pushSources_cons, ih]
    by_cases hx : t = x
    · subst hx
      have hocc : occCount t (t :: ts) = occCount t ts + 1 := by simp [occCount]
      rw [hocc]
      by_cases hc : occCount t ts = 0
      · simp [hc, mlookup_mpush]
      · simp [hc, mlookup_mpush, List.replicate_succ]
    · have hxt : ¬ x = t := fun h => hx h.symm
      have hocc : occCount t (x :: ts) = occCount t ts := by simp [occCount, hxt]
      rw [hocc]
      simp only [mlookup_mpush, if_neg hx]

lemma mlookup_eq_none_of_not_mem_fst {α : Type} (m : List (Int × α)) (k : Int)
    (h : k ∉ m.map Prod.fst) : mlookup m k = none := by
  induction m with
  | nil => rfl
  | cons p rest ih =>
    obtain ⟨k0, v0⟩ := p
    have h1 : ¬ k = k0 := fun he => h (by simp [he])
    have h2 : k ∉ rest.map Prod.fst := fun hm => h (by simp [hm])
    rw [mlookup_cons, if_neg h1, ih h2]

lemma mlookup_mem_nodup {α : Type} {m : List (Int × α)} {p : Int × α}
    (hnd : (m.map Prod.fst).Nodup) (hp : p ∈ m) : mlookup m p.1 = some p.2 := by
  induction m with
  | nil => simp at hp
  | cons q rest ih =>
    obtain ⟨qk, qv⟩ := q
    rw [List.map_cons, List.nodup_cons] at hnd
    rcases List.mem_cons.1 hp with h | h
    · subst h
      rw [mlookup_cons, if_pos rfl]
    · have hne : ¬ p.1 = qk := by
        intro he
        apply hnd.1
        rw [← he]
        exact List.mem_map.mpr ⟨p, h, rfl⟩
      rw [mlookup_cons, if_neg hne]
      exact ih hnd.2 h

/-- Decode of a fully encoded stream, `outLinks` side: a source listed in
`pairs` (with distinct sources) maps to exactly its target list; any other
key keeps its pre-existing entry. -/
lemma setLinksList_encodePairs_outLinks :
    ∀ (pairs : List (Int × List Int)) (st : LinksState) (k : Int),
    (∀ p ∈ pairs, 0 ≤ p.1 ∧ ∀ x ∈ p.2, 0 ≤ x) →
    (pairs.map Prod.fst).Nodup →
    mlookup (setLinksList st (encodePairs pairs)).outLinks k =
      match mlookup pairs k with
      | some ts => some ts
      | none => mlookup st.outLinks k := by
  intro pairs
  induction pairs with
  | nil => intro st k h hnd; simp [encodePairs, setLinksList]
  | cons p ps ih =>
    intro st k h hnd
    obtain ⟨s, ts⟩ := p
    have hp := h (s, ts) (by simp)
    simp only [List.map_cons, List.nodup_cons] at hnd
    rw [encodePairs_cons, setLinksList_append,
      setLinksList_encodePair s ts st hp.1 hp.2,
      ih _ k (fun q hq => h q (List.mem_cons_of_mem _ hq)) hnd.2]
    by_cases hk : k = s
    · subst hk
      rw [mlookup_eq_none_of_not_mem_fst ps k hnd.1]
      simp [mlookup_cons, mlookup_mset]
    · cases hps : mlookup ps k with
      | some w => simp [mlookup_cons, hk, hps]
      | none => simp [mlookup_cons, hk, hps, mlookup_mset]

/-- Decode of a fully encoded stream, `inLinks` side: each key `t` holds
exactly the sources of the encoded edges with target `t`, in stream order,
appended to whatever the state already stored there. -/
lemma setLinksList_encodePairs_inLinks :
    ∀ (pairs : List (Int × List Int)) (st : LinksState) (t : Int),
    (∀ p ∈ pairs, 0 ≤ p.1 ∧ ∀ x ∈ p.2, 0 ≤ x) →
    mlookup (setLinksList st (encodePairs pairs)).inLinks t =
      if srcsTo pairs t = [] then mlookup st.inLinks t
      else some (((mlookup st.inLinks t).getD []) ++ (srcsTo pairs t).map some) := by
  intro pairs
  induction pairs with
  | nil => intro st t h; simp [encodePairs, srcsTo, setLinksList]
  | cons p ps ih =>
    intro st t h
    obtain ⟨s, ts⟩ := p
    have hp := h (s, ts) (by simp)
    rw [encodePairs_cons, setLinksList_append,
      setLinksList_encodePair s ts st hp.1 hp.2,
      ih _ t (fun q hq => h q (List.mem_cons_of_mem _ hq))]
    rw [srcsTo_cons]
    simp only [filterMap_eq_replicate]
    rw [show mlookup ({ st with
        outLinks := mset st.outLinks s ts
        inLinks := pushSources st.inLinks s ts
        lastKey := s
        srcIndex := some s
        edgePushes := st.edgePushes + ts.length
        srcDecls := st.srcDecls + 1 } : LinksState).inLinks t =
      mlookup (pushSources st.inLinks s ts) t from rfl, mlookup_pushSources]
    by_cases hocc : occCount t ts = 0
    · simp only [hocc, List.replicate_zero, List.nil_append, if_true, reduceIte]
    · have hrep : List.replicate (occCount t ts) ((s : Int)) ≠ [] := by
        intro he
        have := congrArg List.length he
        simp at this
        exact hocc this
      by_cases hps : srcsTo ps t = []
      · simp [hps, hocc, hrep]
      · have hne : List.replicate (occCount t ts) (s : Int) ++ srcsTo ps t ≠ [] := by
          simp [hps]
        simp only [if_neg hocc, if_neg hps, if_neg hne, Option.getD_some, List.map_append,
          List.map_replicate, List.append_assoc]

/-- C1: round-trip.  For any sequence of `(sourceId, targets)` pairs with
pairwise distinct source ids (node ids, hence non-negative), decoding the
concatenated encoding `-(sourceId+1), target+1, ...` maps every listed
source to exactly its original target list in original order, and maps
every target `t` in `inLinks` to exactly the sources of the edges into `t`
in stream (discovery) order — in particular `inLinks[t]` contains `s` for
every encoded edge `(s, t)`. -/
theorem setLinks_roundTrip (pairs : List (Int × List Int))
    (hnd : (pairs.map Prod.fst).Nodup)
    (hok : ∀ p ∈ pairs, 0 ≤ p.1 ∧ ∀ x ∈ p.2, 0 ≤ x) :
    (∀ p ∈ pairs, mlookup (setLinks (encodePairs pairs)).outLinks p.1 = some p.2) ∧
    (∀ t : Int, mlookup (setLinks (encodePairs pairs)).inLinks t =
      if srcsTo pairs t = [] then none
      else some ((srcsTo pairs t).map some)) := by
  constructor
  · intro p hp
    rw [setLinks, setLinksList_encodePairs_outLinks pairs initLinksState p.1 hok hnd,
      mlookup_mem_nodup hnd hp]
  · intro t
    rw [setLinks, setLinksList_encodePairs_inLinks pairs initLinksState t hok]
    by_cases h : srcsTo pairs t = [] <;> simp [h, initLinksState]

/-- C1 witness: encoding the pairs `(0, [1, 2])` and `(1, [0])` and decoding
the stream gives `outLinks[0] = [1, 2]` and `inLinks[0] = [1]`. -/
theorem setLinks_roundTrip_witness :
    mlookup (setLinks (encodePairs [((0 : Int), [(1 : Int), 2]), (1, [0])])).outLinks 0 =
      some [1, 2] ∧
    mlookup (setLinks (encodePairs [((0 : Int), [(1 : Int), 2]), (1, [0])])).inLinks 0 =
      some [some 1] := by
  have h := setLinks_roundTrip [((0 : Int), [(1 : Int), 2]), (1, [0])]
    (by decide) (by decide)
  exact ⟨h.1 (0, [1, 2]) (by decide), (h.2 0).trans (by decide)⟩

/-!
Re-declaration and consistency (C10).  `takeEdges` splits a stream into its
leading run of non-negative (edge) tokens — already decremented — and the
remaining stream; `toPairs` parses a stream into the `(sourceId, targets)`
blocks whose encoding it is.  For a stream that starts with a negative
token, `encodePairs (toPairs l) = l`, which lets the round-trip
characterisation above be applied to arbitrary such streams.
`declaredSources` lists the sources declared by the negative tokens, in
stream order.
-/

/-- Split off the leading run of non-negative tokens, decremented to targets. -/
def takeEdges : List Int → List Int × List Int
  | [] => ([], [])
  | v :: rest =>
    if v < 0 then ([], v :: rest)
    else ((v - 1) :: (takeEdges rest).1, (takeEdges rest).2)

lemma takeEdges_snd_length : ∀ l : List Int, (takeEdges l).2.length ≤ l.length := by
  intro l
  induction l with
  | nil => simp [takeEdges]
  | cons v rest ih =>
    by_cases h : v < 0
    · simp [takeEdges, h]
    · simp only [takeEdges, if_neg h, List.length_cons]
      omega

/-- Parse a token stream into the `(sourceId, targets)` blocks it encodes
(tokens before the first negative token are skipped; a well-formed stream
has none). -/
def toPairs : List Int → List (Int × List Int)
  | [] => []
  | v :: rest =>
    if v < 0 then (-v - 1, (takeEdges rest).1) :: toPairs (takeEdges rest).2
    else toPairs rest
termination_by l => l.length
decreasing_by
  · have := takeEdges_snd_length rest
    simp only [List.length_cons]
    omega
  · simp only [List.length_cons]
    omega

lemma toPairs_nil : toPairs [] = [] := by
  rw [toPairs]

lemma toPairs_cons_neg (v : Int) (rest : List Int) (h : v < 0) :
    toPairs (v :: rest) =
      (-v - 1, (takeEdges rest).1) :: toPairs (takeEdges rest).2 := by
  rw [toPairs]
  simp [h]

lemma toPairs_cons_nonneg (v : Int) (rest : List Int) (h : ¬ v < 0) :
    toPairs (v :: rest) = toPairs rest := by
  rw [toPairs]
  simp [h]

lemma takeEdges_append : ∀ l : List Int,
    ((takeEdges l).1.map (fun t => t + 1)) ++ (takeEdges l).2 = l := by
  intro l
  induction l with
  | nil => simp [takeEdges]
  | cons v rest ih =>
    by_cases h : v < 0
    · simp [takeEdges, h]
    · simp only [takeEdges, if_neg h, List.map_cons, List.cons_append]
      rw [show v - 1 + 1 = v from by ring, ih]

lemma takeEdges_snd_head : ∀ (l : List Int) (v : Int),
    (takeEdges l).2.head? = some v → v < 0 := by
  intro l
  induction l with
  | nil => intro v h; simp [takeEdges] at h
  | cons x rest ih =>
    intro v h
    by_cases hx : x < 0
    · simp [takeEdges, hx] at h
      omega
    · simp only [takeEdges, if_neg hx] at h
      exact ih v h

lemma takeEdges_fst_ge : ∀ (l : List Int) (x : Int), x ∈ (takeEdges l).1 → -1 ≤ x := by
  intro l
  induction l with
  | nil => intro x h; simp [takeEdges] at h
  | cons v rest ih =>
    intro x h
    by_cases hv : v < 0
    · simp [takeEdges, hv] at h
    · simp only [takeEdges, if_neg hv] at h
      rcases List.mem_cons.1 h with h1 | h1
      · omega
      · exact ih x h1

lemma takeEdges_fst_token (l : List Int) (x : Int) (h : x ∈ (takeEdges l).1) :
    x + 1 ∈ l := by
  rw [← takeEdges_append l]
  exact List.mem_append.mpr (Or.inl (List.mem_map.mpr ⟨x, h, rfl⟩))

lemma takeEdges_snd_sub (l : List Int) (x : Int) (h : x ∈ (takeEdges l).2) :
    x ∈ l := by
  rw [← takeEdges_append l]
  exact List.mem_append.mpr (Or.inr h)

/-- Parsing then encoding is the identity on streams that start with a
negative token and contain no zero tokens. -/
lemma encodePairs_toPairs : ∀ (n : Nat) (l : List Int), l.length ≤ n →
    (∀ v ∈ l, v ≠ 0) →
    (∀ v : Int, l.head? = some v → v < 0) →
    encodePairs (toPairs l) = l := by
  intro n
  induction n with
  | zero =>
    intro l hn h0 hh
    have hl : l = [] := List.length_eq_zero.mp (Nat.le_zero.mp hn)
    subst hl
    simp [toPairs_nil, encodePairs]
  | succ n ih =>
    intro l hn h0 hh
    cases l with
    | nil => simp [toPairs_nil, encodePairs]
    | cons v rest =>
      have hv : v < 0 := hh v rfl
      rw [toPairs_cons_neg v rest hv, encodePairs_cons]
      have henc : encodePair (-v - 1, (takeEdges rest).1) =
          v :: (takeEdges rest).1.map (fun t => t + 1) := by
        simp only [encodePair]
        rw [show -(-v - 1 + 1) = v from by ring]
      rw [henc]
      have hrec : encodePairs (toPairs (takeEdges rest).2) = (takeEdges rest).2 := by
        apply ih
        · have h1 := takeEdges_snd_length rest
          simp only [List.length_cons] at hn
          omega
        · intro x hx
          exact h0 x (List.mem_cons_of_mem v (takeEdges_snd_sub rest x hx))
        · intro x hx
          exact takeEdges_snd_head rest x hx
      rw [hrec, List.cons_append, takeEdges_append]

/-- Sources declared by the negative tokens, in stream order. -/
def declaredSources (links : List Int) : List Int :=
  links.filterMap fun v => if v < 0 then some (-v - 1) else none

lemma declaredSources_takeEdges (rest : List Int) :
    declaredSources (takeEdges rest).2 = declaredSources rest := by
  conv_rhs => rw [← takeEdges_append rest]
  rw [declaredSources, declaredSources, List.filterMap_append, List.filterMap_map]
  have hnil : ((takeEdges rest).1.filterMap
      ((fun v => if v < 0 then some (-v - 1) else none) ∘ (fun t => t + 1))) = [] := by
    rw [List.filterMap_eq_nil_iff]
    intro x hx
    have := takeEdges_fst_ge rest x hx
    simp only [Function.comp]
    rw [if_neg (by omega)]
  rw [hnil, List.nil_append]

lemma toPairs_fst : ∀ (n : Nat) (l : List Int), l.length ≤ n →
    (toPairs l).map Prod.fst = declaredSources l := by
  intro n
  induction n with
  | zero =>
    intro l hn
    have hl : l = [] := List.length_eq_zero.mp (Nat.le_zero.mp hn)
    subst hl
    simp [toPairs_nil, declaredSources]
  | succ n ih =>
    intro l hn
    cases l with
    | nil => simp [toPairs_nil, declaredSources]
    | cons v rest =>
      simp only [List.length_cons] at hn
      by_cases hv : v < 0
      · rw [toPairs_cons_neg v rest hv, List.map_cons,
          show declaredSources (v :: rest) = (-v - 1) :: declaredSources rest from by
            simp [declaredSources, List.filterMap_cons, hv]]
        have hlen : (takeEdges rest).2.length ≤ n := by
          have := takeEdges_snd_length rest
          omega
        rw [ih (takeEdges rest).2 hlen, declaredSources_takeEdges]
      · rw [toPairs_cons_nonneg v rest hv,
          show declaredSources (v :: rest) = declaredSources rest from by
            simp [declaredSources, List.filterMap_cons, hv]]
        exact ih rest (by omega)

lemma toPairs_ok : ∀ (n : Nat) (l : List Int), l.length ≤ n →
    (∀ v ∈ l, v ≠ 0) →
    ∀ p ∈ toPairs l, 0 ≤ p.1 ∧ ∀ x ∈ p.2, 0 ≤ x := by
  intro n
  induction n with
  | zero =>
    intro l hn h0
    have hl : l = [] := List.length_eq_zero.mp (Nat.le_zero.mp hn)
    subst hl
    simp [toPairs_nil]
  | succ n ih =>
    intro l hn h0
    cases l with
    | nil => simp [toPairs_nil]
    | cons v rest =>
      simp only [List.length_cons] at hn
      by_cases hv : v < 0
      · rw [toPairs_cons_neg v rest hv]
        intro p hp
        rcases List.mem_cons.1 hp with h1 | h1
        · subst h1
          constructor
          · show (0 : Int) ≤ -v - 1
            omega
          · intro x hx
            have hge := takeEdges_fst_ge rest x hx
            have htk := takeEdges_fst_token rest x hx
            have hnz := h0 (x + 1) (List.mem_cons_of_mem v htk)
            omega
        · have hlen : (takeEdges rest).2.length ≤ n := by
            have := takeEdges_snd_length rest
            omega
          exact ih (takeEdges rest).2 hlen
            (fun y hy => h0 y (List.mem_cons_of_mem v (takeEdges_snd_sub rest y hy))) p h1
      · rw [toPairs_cons_nonneg v rest hv]
        exact ih rest (by omega) (fun y hy => h0 y (List.mem_cons_of_mem v hy))

lemma occCount_append {α : Type} [DecidableEq α] (x : α) (a b : List α) :
    occCount x (a ++ b) = occCount x a + occCount x b := by
  induction a with
  | nil => simp [occCount]
  | cons y a ih =>
    by_cases h : y = x
    · simp [occCount, ih, h]
      omega
    · simp [occCount, ih, h]

lemma occCount_replicate {α : Type} [DecidableEq α] (x y : α) (n : Nat) :
    occCount x (List.replicate n y) = if y = x then n else 0 := by
  induction n with
  | zero => simp [occCount]
  | succ n ih =>
    by_cases h : y = x
    · subst h
      simp [List.replicate_succ, occCount, ih]
    · simp [List.replicate_succ, occCount, ih, h]

lemma occCount_map_some (s : Int) (l : List Int) :
    occCount (some s) (l.map (fun x => (some x : Option Int))) = occCount s l := by
  induction l with
  | nil => rfl
  | cons y l ih =>
    by_cases h : y = s <;> simp [occCount, ih, h]

lemma occCount_eq_zero_of_not_mem {α : Type} [DecidableEq α] (x : α) (l : List α)
    (h : x ∉ l) : occCount x l = 0 := by
  induction l with
  | nil => rfl
  | cons y l ih =>
    have h1 : ¬ y = x := fun he => h (by rw [← he]; exact List.mem_cons_self y l)
    simp [occCount, h1, ih (fun hm => h (List.mem_cons_of_mem y hm))]

lemma mem_srcsTo : ∀ (pairs : List (Int × List Int)) (t x : Int),
    x ∈ srcsTo pairs t → x ∈ pairs.map Prod.fst := by
  intro pairs
  induction pairs with
  | nil => intro t x h; simp [srcsTo] at h
  | cons p ps ih =>
    intro t x h
    rw [srcsTo_cons] at h
    rcases List.mem_append.1 h with h1 | h1
    · rw [filterMap_eq_replicate] at h1
      have hx := List.eq_of_mem_replicate h1
      rw [List.map_cons, hx]
      exact List.mem_cons_self _ _
    · rw [List.map_cons]
      exact List.mem_cons_of_mem _ (ih t x h1)

/-- With distinct sources, the number of times `s` appears among the sources
of edges into `t` equals the number of times `t` appears in the target list
of the unique pair with source `s` (0 when `s` is not a source). -/
lemma occCount_srcsTo : ∀ (pairs : List (Int × List Int)) (s t : Int),
    (pairs.map Prod.fst).Nodup →
    occCount s (srcsTo pairs t) =
      match mlookup pairs s with
      | some ts => occCount t ts
      | none => 0 := by
  intro pairs
  induction pairs with
  | nil => intro s t hnd; simp [srcsTo, occCount]
  | cons p ps ih =>
    intro s t hnd
    obtain ⟨pk, pts⟩ := p
    rw [List.map_cons, List.nodup_cons] at hnd
    rw [srcsTo_cons, occCount_append, filterMap_eq_replicate, occCount_replicate]
    by_cases hs : s = pk
    · subst hs
      rw [mlookup_cons, if_pos rfl, if_pos rfl]
      have h0 : occCount s (srcsTo ps t) = 0 := by
        apply occCount_eq_zero_of_not_mem
        intro hm
        exact hnd.1 (mem_srcsTo ps t s hm)
      rw [h0]
      simp
    · rw [mlookup_cons, if_neg hs, if_neg (fun h => hs h.symm)]
      have := ih s t hnd.2
      simp [this]

/-- C10: a negative token re-declaring a source resets that source's
`outLinks` list to empty while leaving `inLinks` untouched (so discarded
edges keep their back-references); consequently, for every stream that
begins with a negative token, contains no zero tokens, and declares each
source at most once, the decoded mappings are mutually consistent — `t`
occurs in `outLinks[s]` exactly as often as `s` occurs in `inLinks[t]` —
whereas for the stream `[-1, 2, -1]`, which re-declares source 0, node 1
occurs 0 times in `outLinks[0]` while 0 occurs once in `inLinks[1]`. -/
theorem setLinks_redeclare_consistency :
    (∀ (st : LinksState) (v : Int), v < 0 →
      mlookup (setLinksStep st v).outLinks (-v - 1) = some [] ∧
      (setLinksStep st v).inLinks = st.inLinks) ∧
    (∀ (v : Int) (rest : List Int), v < 0 →
      (∀ x ∈ v :: rest, x ≠ 0) →
      (declaredSources (v :: rest)).Nodup →
      ∀ s t : Int,
        occCount t ((mlookup (setLinks (v :: rest)).outLinks s).getD []) =
        occCount (some s) ((mlookup (setLinks (v :: rest)).inLinks t).getD [])) ∧
    (occCount 1 ((mlookup (setLinks [-1, 2, -1]).outLinks 0).getD []) = 0 ∧
     occCount (some 0) ((mlookup (setLinks [-1, 2, -1]).inLinks 1).getD []) = 1) := by
  refine ⟨?_, ?_, by decide⟩
  · intro st v hv
    constructor
    · simp [setLinksStep, hv, mlookup_mset]
    · simp [setLinksStep, hv]
  · intro v rest hv h0 hnd s t
    have hhead : ∀ x : Int, (v :: rest).head? = some x → x < 0 := by
      intro x hx
      simp only [List.head?_cons, Option.some.injEq] at hx
      omega
    have henc : encodePairs (toPairs (v :: rest)) = v :: rest :=
      encodePairs_toPairs (v :: rest).length (v :: rest) le_rfl h0 hhead
    have hnd2 : ((toPairs (v :: rest)).map Prod.fst).Nodup := by
      rw [toPairs_fst (v :: rest).length (v :: rest) le_rfl]
      exact hnd
    have hok : ∀ p ∈ toPairs (v :: rest), 0 ≤ p.1 ∧ ∀ x ∈ p.2, 0 ≤ x :=
      toPairs_ok (v :: rest).length (v :: rest) le_rfl h0
    have hout := setLinksList_encodePairs_outLinks (toPairs (v :: rest))
      initLinksState s hok hnd2
    have hin := setLinksList_encodePairs_inLinks (toPairs (v :: rest))
      initLinksState t hok
    rw [henc] at hout hin
    have hR : ((if srcsTo (toPairs (v :: rest)) t = []
          then mlookup initLinksState.inLinks t
          else some ((mlookup initLinksState.inLinks t).getD [] ++
            (srcsTo (toPairs (v :: rest)) t).map some)).getD
            ([] : List (Option Int))) =
        (srcsTo (toPairs (v :: rest)) t).map (fun x => (some x : Option Int)) := by
      by_cases h : srcsTo (toPairs (v :: rest)) t = [] <;> simp [h, initLinksState]
    rw [setLinks, hout, hin, hR, occCount_map_some]
    have hsrcs := occCount_srcsTo (toPairs (v :: rest)) s t hnd2
    cases hps : mlookup (toPairs (v :: rest)) s with
    | some ts =>
      rw [hps] at hsrcs
      show occCount t ts = occCount s (srcsTo (toPairs (v :: rest)) t)
      exact hsrcs.symm
    | none =>
      rw [hps] at hsrcs
      show occCount t ((mlookup initLinksState.outLinks s).getD []) =
        occCount s (srcsTo (toPairs (v :: rest)) t)
      have hinit : (mlookup initLinksState.outLinks s).getD ([] : List Int) = [] := by
        by_cases hs0 : s = 0 <;> simp [initLinksState, mlookup, hs0]
      rw [hinit, hsrcs]
      rfl

/-- C10 witness: the stream `[-1, 2]` starts with a negative token, has no
zero tokens and declares source 0 once; consistency holds both at the
encoded edge (0 → 1) and at an uninvolved pair of nodes (5, 2). -/
theorem setLinks_redeclare_consistency_witness :
    ((-1 : Int) < 0 ∧ (∀ x ∈ [(-1 : Int), 2], x ≠ 0) ∧
      (declaredSources [-1, 2]).Nodup) ∧
    occCount 1 ((mlookup (setLinks [-1, 2]).outLinks 0).getD []) =
      occCount (some 0) ((mlookup (setLinks [-1, 2]).inLinks 1).getD []) ∧
    occCount 2 ((mlookup (setLinks [-1, 2]).outLinks 5).getD []) =
      occCount (some 5) ((mlookup (setLinks [-1, 2]).inLinks 2).getD []) := by
  have h := setLinks_redeclare_consistency.2.1 (-1) [2] (by decide) (by decide) (by decide)
  exact ⟨⟨by decide, by decide, by decide⟩, h 0 1, h 5 2⟩
